import Mathlib

/-!
Shallow embedding of the timeline-trimming core of the repository:
`lhotse/tools/trimming.py` (class `TrimmingTree`),
`lhotse/tools/trimmer/trimmer.py` (class `TrimmerTree`) and
`lhotse/augmentation/defragmentation.py` (class `Defragmentation`),
together with the operations of the third-party `intervaltree` library
(3.x semantics) that they invoke: `IntervalTree.addi` (raises `ValueError`
on a null interval, i.e. `begin >= end`), `merge_overlaps()` (the default
`strict=True` merges only intervals whose ranges actually overlap; merely
touching intervals stay separate), `slice(p)` (splits every interval with
`begin < p < end` at `p`), `overlap(lo, hi)` (all intervals with
`begin < hi` and `end > lo`; empty when `lo >= hi`) and `remove` (raises
`ValueError` when the interval is absent).

Time values are embedded as rationals.  The `float("inf")` / `float("-inf")`
sentinels used by `Defragmentation.trimmer` are embedded by an extended
type `XQ` further below.
-/

namespace Lhotse

/-- Python exceptions raised by the modelled code paths. -/
inductive PyError where
  | valueError : PyError
  | notImplementedError : PyError
  deriving DecidableEq, Repr

/-- An interval of the `intervaltree` library, as the pair (begin, end). -/
abbrev Iv : Type := ℚ × ℚ

/-- Length `end - begin` of an interval, as summed by
`sum(o.end - o.begin for o in overlap)` in `TrimmingTree.__call__`. -/
def ivLen (iv : Iv) : ℚ := iv.2 - iv.1

/-- Sum of the lengths of a collection of intervals (Python `sum`). -/
def deltaSum (l : List Iv) : ℚ := (l.map ivLen).sum

/-- The lexicographic order on `(begin, end)` pairs used by Python's
`sorted` on `Interval` values (their `data` field is always `None` here). -/
def ivLeB (u v : Iv) : Bool :=
  decide (u.1 < v.1) || (decide (u.1 = v.1) && decide (u.2 ≤ v.2))

/-- Ordered insertion used to model Python's `sorted`. -/
def insertIv (x : Iv) : List Iv → List Iv
  | [] => [x]
  | y :: ys => if ivLeB x y then x :: y :: ys else y :: insertIv x ys

/-- Model of `sorted(self.all_intervals)`: sorting by `(begin, end)`. -/
def sortIvs (l : List Iv) : List Iv := l.foldr insertIv []

/-- One step of the fold inside `IntervalTree.merge_overlaps` (3.x, with the
default `strict=True`): the most recently emitted interval sits at the head
of the accumulator; a new interval is folded into it only when
`higher.begin < lower.end` (strict overlap), otherwise a new series starts. -/
def mergeStep (acc : List Iv) (nxt : Iv) : List Iv :=
  match acc with
  | [] => [nxt]
  | cur :: rest =>
    if nxt.1 < cur.2 then (cur.1, max cur.2 nxt.2) :: rest else nxt :: cur :: rest

/-- Model of `IntervalTree.merge_overlaps()` as called by `_merge`:
sort the intervals, fold strictly-overlapping ones together. -/
def mergeOverlaps (l : List Iv) : List Iv :=
  ((sortIvs l).foldl mergeStep []).reverse

/-- Model of `IntervalTree.slice(p)` on one interval: an interval with
`begin < p < end` is split into `[begin, p)` and `[p, end)`. -/
def slicePoint (p : ℚ) (iv : Iv) : List Iv :=
  if iv.1 < p ∧ p < iv.2 then [(iv.1, p), (p, iv.2)] else [iv]

/-- Model of `IntervalTree.slice(p)` on the whole collection. -/
def sliceTree (p : ℚ) : List Iv → List Iv
  | [] => []
  | iv :: tl => slicePoint p iv ++ sliceTree p tl

/-- Model of `IntervalTree.overlap(lo, hi)`: intervals with `begin < hi`
and `end > lo`; the library returns the empty set when `lo >= hi`. -/
def treeOverlap (lo hi : ℚ) (l : List Iv) : List Iv :=
  if hi ≤ lo then []
  else l.filter fun iv => decide (iv.1 < hi) && decide (lo < iv.2)

/-- Round half to even of a rational, modelling Python's `round` on the
exact value (banker's rounding). -/
def rhe (x : ℚ) : ℤ :=
  if x - ⌊x⌋ < 1 / 2 then ⌊x⌋
  else if 1 / 2 < x - ⌊x⌋ then ⌊x⌋ + 1
  else if ⌊x⌋ % 2 = 0 then ⌊x⌋ else ⌊x⌋ + 1

/-- Model of the tail of `TrimmingTree.__call__`: `round(answer, ndigits)`
when `ndigits` was configured, the raw answer otherwise. -/
def applyRound (nd : Option ℤ) (x : ℚ) : ℚ :=
  match nd with
  | none => x
  | some n => ((rhe (x * (10 : ℚ) ^ n) : ℤ) : ℚ) / (10 : ℚ) ^ n

/-- State of a `TrimmingTree` (`lhotse/tools/trimming.py`): the anchor and
`ndigits` fixed at construction, the collection of removed intervals, and
the lazy-merge flag. -/
structure TrimmingTree where
  anchor : ℚ
  ndigits : Option ℤ
  tree : List Iv
  merged : Bool
  deriving DecidableEq, Repr

/-- `TrimmingTree(anchor, ndigits)`: fresh tree, empty interval set. -/
def TrimmingTree.make (anchor : ℚ) (nd : Option ℤ) : TrimmingTree :=
  ⟨anchor, nd, [], false⟩

/-- `TrimmingTree.add_interval(start, end)`: delegates to
`IntervalTree.addi`, which raises `ValueError` on a null interval
(`begin >= end`); otherwise stores the interval and clears the merge flag. -/
def TrimmingTree.addInterval (t : TrimmingTree) (b e : ℚ) :
    Except PyError TrimmingTree :=
  if e ≤ b then .error .valueError
  else .ok { t with tree := t.tree ++ [(b, e)], merged := false }

/-- `TrimmingTree.add_segment(start, duration)`: adds `[start, start+duration)`. -/
def TrimmingTree.addSegment (t : TrimmingTree) (s d : ℚ) :
    Except PyError TrimmingTree :=
  t.addInterval s (s + d)

/-- `TrimmingTree.__call__(point)`: merge, slice a copy at the anchor and at
the point, sum the lengths of the intervals overlapping the span between
them, negate the delta when `point >= anchor`, add, and round if configured. -/
def TrimmingTree.call (t : TrimmingTree) (point : ℚ) : ℚ :=
  let m := mergeOverlaps t.tree
  let sliced := sliceTree point (sliceTree t.anchor m)
  let lo := min point t.anchor
  let hi := max point t.anchor
  let delta := deltaSum (treeOverlap lo hi sliced)
  let signed := if t.anchor ≤ point then -delta else delta
  applyRound t.ndigits (point + signed)

/-- `TrimmingTree.interval(start, end)`: the two endpoints trimmed. -/
def TrimmingTree.interval (t : TrimmingTree) (s e : ℚ) : ℚ × ℚ :=
  (t.call s, t.call e)

/-- `TrimmingTree.segment(start, duration)`: trimmed start and duration. -/
def TrimmingTree.segment (t : TrimmingTree) (s d : ℚ) : ℚ × ℚ :=
  let p := t.interval s (s + d)
  (p.1, p.2 - p.1)

/-- All intervals of a collection are valid (`begin < end`), the invariant
`IntervalTree.addi` maintains on every stored interval. -/
def ValidIvs (l : List Iv) : Prop := ∀ iv ∈ l, iv.1 < iv.2

instance : DecidablePred ValidIvs := fun l =>
  inferInstanceAs (Decidable (∀ iv ∈ l, iv.1 < iv.2))

/-- Length of the part of an interval lying inside the closed span
`[lo, hi]` — the spec's "portion of the interval inside the query span". -/
def clip (iv : Iv) (lo hi : ℚ) : ℚ := max 0 (min iv.2 hi - max iv.1 lo)

/-- Total length of a collection of intervals intersected with the closed
span `[lo, hi]` — the spec's `delta`. -/
def clipSum (l : List Iv) (lo hi : ℚ) : ℚ :=
  (l.map fun iv => clip iv lo hi).sum

/-! ### TrimmerTree (`lhotse/tools/trimmer/trimmer.py`)

The second copy of the tree, embedded separately from its own source file;
its method bodies are line-for-line the same as `TrimmingTree`'s. -/

/-- State of a `TrimmerTree` (`lhotse/tools/trimmer/trimmer.py`). -/
structure TrimmerTree where
  anchor : ℚ
  ndigits : Option ℤ
  tree : List Iv
  merged : Bool
  deriving DecidableEq, Repr

/-- `TrimmerTree(anchor, ndigits)`: fresh tree, empty interval set. -/
def TrimmerTree.make (anchor : ℚ) (nd : Option ℤ) : TrimmerTree :=
  ⟨anchor, nd, [], false⟩

/-- `TrimmerTree.add_interval(start, end)`. -/
def TrimmerTree.addInterval (t : TrimmerTree) (b e : ℚ) :
    Except PyError TrimmerTree :=
  if e ≤ b then .error .valueError
  else .ok { t with tree := t.tree ++ [(b, e)], merged := false }

/-- `TrimmerTree.add_segment(start, duration)`. -/
def TrimmerTree.addSegment (t : TrimmerTree) (s d : ℚ) :
    Except PyError TrimmerTree :=
  t.addInterval s (s + d)

/-- `TrimmerTree.__call__(point)`. -/
def TrimmerTree.call (t : TrimmerTree) (point : ℚ) : ℚ :=
  let m := mergeOverlaps t.tree
  let sliced := sliceTree point (sliceTree t.anchor m)
  let lo := min point t.anchor
  let hi := max point t.anchor
  let delta := deltaSum (treeOverlap lo hi sliced)
  let signed := if t.anchor ≤ point then -delta else delta
  applyRound t.ndigits (point + signed)

/-- `TrimmerTree.interval(start, end)`. -/
def TrimmerTree.interval (t : TrimmerTree) (s e : ℚ) : ℚ × ℚ :=
  (t.call s, t.call e)

/-- `TrimmerTree.segment(start, duration)`. -/
def TrimmerTree.segment (t : TrimmerTree) (s d : ℚ) : ℚ × ℚ :=
  let p := t.interval s (s + d)
  (p.1, p.2 - p.1)

/-! ### Extended values for `Defragmentation`

`Defragmentation.trimmer` seeds its working tree with the interval
`(-float("inf"), float("inf"))`, so that model runs over IEEE-style
extended values: `nan`, `-inf`, finite rationals, `+inf`. -/

/-- A Python float value as used here: `nan`, `-inf`, an exact finite
value, or `+inf`. -/
inductive XQ where
  | nan : XQ
  | ninf : XQ
  | fin : ℚ → XQ
  | pinf : XQ
  deriving DecidableEq, Repr

/-- IEEE `<` on extended values (`nan` compares false to everything). -/
def XQ.ltb : XQ → XQ → Bool
  | .nan, _ => false
  | _, .nan => false
  | .ninf, .ninf => false
  | .ninf, _ => true
  | .fin _, .ninf => false
  | .fin a, .fin b => decide (a < b)
  | .fin _, .pinf => true
  | .pinf, _ => false

/-- IEEE `<=` on extended values (`nan` compares false to everything). -/
def XQ.leb : XQ → XQ → Bool
  | .nan, _ => false
  | _, .nan => false
  | .ninf, _ => true
  | .fin _, .ninf => false
  | .fin a, .fin b => decide (a ≤ b)
  | .fin _, .pinf => true
  | .pinf, .pinf => true
  | .pinf, _ => false

/-- IEEE negation. -/
def XQ.neg : XQ → XQ
  | .nan => .nan
  | .ninf => .pinf
  | .fin a => .fin (-a)
  | .pinf => .ninf

/-- IEEE addition (`inf + -inf = nan`). -/
def XQ.add : XQ → XQ → XQ
  | .nan, _ => .nan
  | _, .nan => .nan
  | .ninf, .pinf => .nan
  | .pinf, .ninf => .nan
  | .ninf, _ => .ninf
  | _, .ninf => .ninf
  | .pinf, _ => .pinf
  | _, .pinf => .pinf
  | .fin a, .fin b => .fin (a + b)

/-- IEEE subtraction. -/
def XQ.sub (a b : XQ) : XQ := a.add b.neg

/-- Python's `max(a, b)`: returns `b` only when `b > a`. -/
def XQ.pymax (a b : XQ) : XQ := if XQ.ltb a b then b else a

/-- An `intervaltree` interval over extended values. -/
abbrev XIv : Type := XQ × XQ

/-- Python `sum` over the lengths `o.end - o.begin`. -/
def xdeltaSum (l : List XIv) : XQ :=
  (l.map fun iv => XQ.sub iv.2 iv.1).foldl XQ.add (XQ.fin 0)

/-- Lexicographic `(begin, end)` order for Python's `sorted` on intervals. -/
def xivLeB (u v : XIv) : Bool :=
  XQ.ltb u.1 v.1 || (decide (u.1 = v.1) && XQ.leb u.2 v.2)

/-- Ordered insertion for the extended-value sort. -/
def xinsertIv (x : XIv) : List XIv → List XIv
  | [] => [x]
  | y :: ys => if xivLeB x y then x :: y :: ys else y :: xinsertIv x ys

/-- `sorted(self.all_intervals)` over extended values. -/
def xsortIvs (l : List XIv) : List XIv := l.foldr xinsertIv []

/-- One `merge_overlaps` (strict) step over extended values. -/
def xmergeStep (acc : List XIv) (nxt : XIv) : List XIv :=
  match acc with
  | [] => [nxt]
  | cur :: rest =>
    if XQ.ltb nxt.1 cur.2 then (cur.1, XQ.pymax cur.2 nxt.2) :: rest
    else nxt :: cur :: rest

/-- `IntervalTree.merge_overlaps()` over extended values. -/
def xmergeOverlaps (l : List XIv) : List XIv :=
  ((xsortIvs l).foldl xmergeStep []).reverse

/-- `IntervalTree.slice(p)` on one extended-value interval. -/
def xslicePoint (p : XQ) (iv : XIv) : List XIv :=
  if XQ.ltb iv.1 p && XQ.ltb p iv.2 then [(iv.1, p), (p, iv.2)] else [iv]

/-- `IntervalTree.slice(p)` on the whole extended-value collection. -/
def xsliceTree (p : XQ) : List XIv → List XIv
  | [] => []
  | iv :: tl => xslicePoint p iv ++ xsliceTree p tl

/-- `IntervalTree.overlap(lo, hi)` over extended values. -/
def xtreeOverlap (lo hi : XQ) (l : List XIv) : List XIv :=
  if XQ.leb hi lo then []
  else l.filter fun iv => XQ.ltb iv.1 hi && XQ.ltb lo iv.2

/-- `IntervalTree.addi` over extended values: raises on `begin >= end`. -/
def xaddi (tree : List XIv) (b e : XQ) : Except PyError (List XIv) :=
  if XQ.leb e b then .error .valueError else .ok (tree ++ [(b, e)])

/-- `IntervalTree.remove(iv)`: raises `ValueError` if `iv` is absent. -/
def xremove (tree : List XIv) (iv : XIv) : Except PyError (List XIv) :=
  if iv ∈ tree then .ok (tree.filter fun x => !decide (x = iv))
  else .error .valueError

/-- `round(answer, ndigits)` on an extended value: infinities and `nan`
pass through, finite values are rounded. -/
def xApplyRound (nd : Option ℤ) (x : XQ) : XQ :=
  match nd with
  | none => x
  | some n =>
    match x with
    | .fin q => .fin (applyRound (some n) q)
    | other => other

/-- The `TrimmerTree` state over extended values, as `Defragmentation`
builds it (its `add_interval` calls receive infinite endpoints). -/
structure XTrimmerTree where
  anchor : XQ
  ndigits : Option ℤ
  tree : List XIv
  merged : Bool
  deriving DecidableEq, Repr

/-- `TrimmerTree.add_interval` over extended values. -/
def XTrimmerTree.addInterval (t : XTrimmerTree) (b e : XQ) :
    Except PyError XTrimmerTree :=
  if XQ.leb e b then .error .valueError
  else .ok { t with tree := t.tree ++ [(b, e)], merged := false }

/-- `TrimmerTree.__call__` over extended values: the same merge / slice /
overlap / signed-delta computation, under IEEE arithmetic. -/
def XTrimmerTree.call (t : XTrimmerTree) (point : XQ) : XQ :=
  let m := xmergeOverlaps t.tree
  let sliced := xsliceTree point (xsliceTree t.anchor m)
  let lo := if XQ.ltb t.anchor point then t.anchor else point
  let hi := if XQ.ltb t.anchor point then point else t.anchor
  let delta := xdeltaSum (xtreeOverlap lo hi sliced)
  let signed := if XQ.leb t.anchor point then delta.neg else delta
  xApplyRound t.ndigits (point.add signed)

/-- `TrimmerTree.interval` over extended values. -/
def XTrimmerTree.interval (t : XTrimmerTree) (s e : XQ) : XQ × XQ :=
  (t.call s, t.call e)

/-- `TrimmerTree.segment` over extended values. -/
def XTrimmerTree.segment (t : XTrimmerTree) (s d : XQ) : XQ × XQ :=
  let p := t.interval s (s.add d)
  (p.1, XQ.sub p.2 p.1)

/-! ### Defragmentation (`lhotse/augmentation/defragmentation.py`) -/

/-- State of a `Defragmentation` transform: the canonicalized kept
segments as `(offset, duration)` pairs. -/
structure Defragmentation where
  segments : List (ℚ × ℚ)
  deriving DecidableEq, Repr

/-- `Defragmentation._intervals(segments)`: insert every
`(offset, offset+duration)` via `addi` (raising on null intervals) and
merge; the merged tree iterates in sorted order. -/
def defragIntervals (segs : List (ℚ × ℚ)) : Except PyError (List Iv) := do
  let t ← segs.foldlM (fun tr sd =>
    if sd.1 + sd.2 ≤ sd.1 then Except.error PyError.valueError
    else Except.ok (tr ++ [(sd.1, sd.1 + sd.2)])) ([] : List Iv)
  return mergeOverlaps t

/-- `Defragmentation.__init__(segments)`: store the merged kept intervals
as `(offset, duration)` pairs. -/
def Defragmentation.make (segs : List (ℚ × ℚ)) : Except PyError Defragmentation := do
  let ivs ← defragIntervals segs
  return ⟨ivs.map fun iv => (iv.1, iv.2 - iv.1)⟩

/-- `Defragmentation.trimmer`: start from the sentinel
`(-inf, inf)`, slice at both endpoints of every kept interval and remove
it, then feed every remaining gap into a `TrimmerTree(0.0)`. -/
def Defragmentation.trimmer (d : Defragmentation) :
    Except PyError XTrimmerTree := do
  let t0 ← xaddi [] XQ.ninf XQ.pinf
  let ivs ← defragIntervals d.segments
  let gaps ← ivs.foldlM (fun tr iv => do
    let tr := xsliceTree (XQ.fin iv.1) tr
    let tr := xsliceTree (XQ.fin iv.2) tr
    xremove tr (XQ.fin iv.1, XQ.fin iv.2)) t0
  gaps.foldlM (fun t iv => t.addInterval iv.1 iv.2)
    (⟨XQ.fin 0, none, [], false⟩ : XTrimmerTree)

/-- `Defragmentation.__call__(samples, sampling_rate)`: the sample-level
edit; the body is `raise NotImplementedError()` before any return. -/
def Defragmentation.callSamples (_d : Defragmentation) (_samples : List ℚ)
    (_samplingRate : ℕ) : Except PyError (List ℚ) :=
  .error .notImplementedError

/-- `Defragmentation.reverse_timestamps(offset, duration, sampling_rate)`:
a point query when `duration` is `None`, a segment query otherwise. -/
def Defragmentation.reverseTimestamps (d : Defragmentation) (ofs : ℚ)
    (dur : Option ℚ) : Except PyError (XQ × Option XQ) := do
  let t ← d.trimmer
  match dur with
  | none => return (t.call (XQ.fin ofs), none)
  | some du =>
    let p := t.segment (XQ.fin ofs) (XQ.fin du)
    return (p.1, some p.2)

/-! ### Insertion sequences, for relating the two tree classes -/

/-- One mutating call of the public insertion API. -/
inductive TrimOp where
  | interval (b e : ℚ) : TrimOp
  | segment (s d : ℚ) : TrimOp
  deriving DecidableEq, Repr

/-- Run one insertion call on a `TrimmingTree`. -/
def TrimmingTree.applyOp (t : TrimmingTree) : TrimOp → Except PyError TrimmingTree
  | .interval b e => t.addInterval b e
  | .segment s d => t.addSegment s d

/-- Run one insertion call on a `TrimmerTree`. -/
def TrimmerTree.applyOp (t : TrimmerTree) : TrimOp → Except PyError TrimmerTree
  | .interval b e => t.addInterval b e
  | .segment s d => t.addSegment s d

/-- Construct a `TrimmingTree` and run a sequence of insertion calls,
stopping at the first raised exception. -/
def buildTrimming (a : ℚ) (nd : Option ℤ) (ops : List TrimOp) :
    Except PyError TrimmingTree :=
  ops.foldlM TrimmingTree.applyOp (TrimmingTree.make a nd)

/-- Construct a `TrimmerTree` and run the same sequence of insertion calls. -/
def buildTrimmer (a : ℚ) (nd : Option ℤ) (ops : List TrimOp) :
    Except PyError TrimmerTree :=
  ops.foldlM TrimmerTree.applyOp (TrimmerTree.make a nd)

/-- The field-for-field correspondence between the two tree classes. -/
def toTrimmer (t : TrimmingTree) : TrimmerTree :=
  ⟨t.anchor, t.ndigits, t.tree, t.merged⟩

/-- No interval of the collection strictly straddles the point `c`;
this is what `IntervalTree.slice(c)` establishes. -/
def NoStraddle (c : ℚ) (l : List Iv) : Prop :=
  ∀ iv ∈ l, ¬(iv.1 < c ∧ c < iv.2)

/-! ### Lemmas about `clip` and `clipSum` -/

theorem clip_nonneg (iv : Iv) (lo hi : ℚ) : 0 ≤ clip iv lo hi :=
  le_max_left _ _

theorem clipSum_nil (lo hi : ℚ) : clipSum [] lo hi = 0 := rfl

theorem clipSum_cons (iv : Iv) (l : List Iv) (lo hi : ℚ) :
    clipSum (iv :: l) lo hi = clip iv lo hi + clipSum l lo hi := by
  simp [clipSum]

theorem clipSum_append (l₁ l₂ : List Iv) (lo hi : ℚ) :
    clipSum (l₁ ++ l₂) lo hi = clipSum l₁ lo hi + clipSum l₂ lo hi := by
  simp [clipSum]

theorem clipSum_nonneg (l : List Iv) (lo hi : ℚ) : 0 ≤ clipSum l lo hi := by
  induction l with
  | nil => simp [clipSum_nil]
  | cons iv tl ih =>
    rw [clipSum_cons]
    have := clip_nonneg iv lo hi
    linarith

theorem clipSum_degenerate (l : List Iv) (lo hi : ℚ) (h : hi ≤ lo) :
    clipSum l lo hi = 0 := by
  induction l with
  | nil => rfl
  | cons iv tl ih =>
    rw [clipSum_cons, ih]
    have h1 : min iv.2 hi ≤ hi := min_le_right _ _
    have h2 : lo ≤ max iv.1 lo := le_max_right _ _
    have : clip iv lo hi = 0 := by
      unfold clip
      rw [max_eq_left]
      linarith
    rw [this, add_zero]

theorem clip_le_clipSum (iv : Iv) (l : List Iv) (lo hi : ℚ) (h : iv ∈ l) :
    clip iv lo hi ≤ clipSum l lo hi := by
  induction l with
  | nil => cases h
  | cons x tl ih =>
    rw [clipSum_cons]
    rcases List.mem_cons.mp h with rfl | hm
    · have := clipSum_nonneg tl lo hi
      linarith
    · have := clip_nonneg x lo hi
      have := ih hm
      linarith

theorem clip_split (iv : Iv) (p lo hi : ℚ) (h1 : iv.1 ≤ p) (h2 : p ≤ iv.2) :
    clip (iv.1, p) lo hi + clip (p, iv.2) lo hi = clip iv lo hi := by
  obtain ⟨b, e⟩ := iv
  simp only [clip, max_def, min_def] at *
  split_ifs <;> linarith

theorem clip_additive (iv : Iv) (lo mid hi : ℚ) (h1 : lo ≤ mid) (h2 : mid ≤ hi) :
    clip iv lo hi = clip iv lo mid + clip iv mid hi := by
  obtain ⟨b, e⟩ := iv
  simp only [clip, max_def, min_def] at *
  split_ifs <;> linarith

theorem clipSum_additive (l : List Iv) (lo mid hi : ℚ) (h1 : lo ≤ mid)
    (h2 : mid ≤ hi) :
    clipSum l lo hi = clipSum l lo mid + clipSum l mid hi := by
  induction l with
  | nil => simp [clipSum_nil]
  | cons iv tl ih =>
    rw [clipSum_cons, clipSum_cons, clipSum_cons, ih,
      clip_additive iv lo mid hi h1 h2]
    ring

theorem clip_raise (iv : Iv) (lo hi m : ℚ) (h : m ≤ iv.1) :
    clip iv lo hi = clip iv (max lo m) hi := by
  unfold clip
  have : max iv.1 (max lo m) = max iv.1 lo := by
    rw [max_comm lo m, ← max_assoc, max_eq_left h]
  rw [this]

theorem clipSum_raise (l : List Iv) (lo hi m : ℚ) (h : ∀ iv ∈ l, m ≤ iv.1) :
    clipSum l lo hi = clipSum l (max lo m) hi := by
  induction l with
  | nil => rfl
  | cons iv tl ih =>
    rw [clipSum_cons, clipSum_cons,
      clip_raise iv lo hi m (h iv (List.mem_cons_self _ _)),
      ih fun x hx => h x (List.mem_cons_of_mem _ hx)]

/-! ### Lemmas about slicing -/

theorem mem_sliceTree {p : ℚ} {l : List Iv} {iv : Iv} (h : iv ∈ sliceTree p l) :
    ∃ x ∈ l, iv ∈ slicePoint p x := by
  induction l with
  | nil => cases h
  | cons y tl ih =>
    rcases List.mem_append.mp h with h1 | h2
    · exact ⟨y, List.mem_cons_self _ _, h1⟩
    · obtain ⟨x, hx, hiv⟩ := ih h2
      exact ⟨x, List.mem_cons_of_mem _ hx, hiv⟩

theorem clipSum_slicePoint (p lo hi : ℚ) (iv : Iv) :
    clipSum (slicePoint p iv) lo hi = clip iv lo hi := by
  unfold slicePoint
  split_ifs with h
  · rw [clipSum_cons, clipSum_cons, clipSum_nil, add_zero,
      clip_split iv p lo hi h.1.le h.2.le]
  · rw [clipSum_cons, clipSum_nil, add_zero]

theorem clipSum_sliceTree (p lo hi : ℚ) (l : List Iv) :
    clipSum (sliceTree p l) lo hi = clipSum l lo hi := by
  induction l with
  | nil => rfl
  | cons iv tl ih =>
    rw [sliceTree, clipSum_append, clipSum_cons, ih, clipSum_slicePoint]

theorem validIvs_slicePoint {p : ℚ} {iv x : Iv} (hx : x.1 < x.2)
    (h : iv ∈ slicePoint p x) : iv.1 < iv.2 := by
  unfold slicePoint at h
  split_ifs at h with hc
  · rcases List.mem_cons.mp h with rfl | h2
    · exact hc.1
    · rcases List.mem_cons.mp h2 with rfl | h3
      · exact hc.2
      · cases h3
  · rcases List.mem_cons.mp h with rfl | h2
    · exact hx
    · cases h2

theorem validIvs_sliceTree {p : ℚ} {l : List Iv} (hv : ValidIvs l) :
    ValidIvs (sliceTree p l) := by
  intro iv hiv
  obtain ⟨x, hx, hmem⟩ := mem_sliceTree hiv
  exact validIvs_slicePoint (hv x hx) hmem

theorem noStraddle_sliceTree_self (c : ℚ) (l : List Iv) :
    NoStraddle c (sliceTree c l) := by
  intro iv hiv
  obtain ⟨x, _, hmem⟩ := mem_sliceTree hiv
  unfold slicePoint at hmem
  split_ifs at hmem with hc
  · rcases List.mem_cons.mp hmem with rfl | h2
    · exact fun hh => absurd hh.2 (lt_irrefl c)
    · rcases List.mem_cons.mp h2 with rfl | h3
      · exact fun hh => absurd hh.1 (lt_irrefl c)
      · cases h3
  · rcases List.mem_cons.mp hmem with rfl | h2
    · exact hc
    · cases h2

theorem noStraddle_sliceTree {c p : ℚ} {l : List Iv} (h : NoStraddle c l) :
    NoStraddle c (sliceTree p l) := by
  intro iv hiv
  obtain ⟨x, hx, hmem⟩ := mem_sliceTree hiv
  have hns := h x hx
  unfold slicePoint at hmem
  split_ifs at hmem with hc
  · rcases List.mem_cons.mp hmem with rfl | h2
    · exact fun hh => hns ⟨hh.1, lt_trans hh.2 hc.2⟩
    · rcases List.mem_cons.mp h2 with rfl | h3
      · exact fun hh => hns ⟨lt_trans hc.1 hh.1, hh.2⟩
      · cases h3
  · rcases List.mem_cons.mp hmem with rfl | h2
    · exact hns
    · cases h2

/-! ### The overlap filter computes the clipped sum -/

theorem clip_eq_len {iv : Iv} {lo hi : ℚ} (hv : iv.1 < iv.2)
    (hns1 : ¬(iv.1 < lo ∧ lo < iv.2)) (hns2 : ¬(iv.1 < hi ∧ hi < iv.2))
    (hin : iv.1 < hi ∧ lo < iv.2) : clip iv lo hi = ivLen iv := by
  have hb : lo ≤ iv.1 := by
    by_contra hb
    exact hns1 ⟨not_le.mp hb, hin.2⟩
  have he : iv.2 ≤ hi := by
    by_contra he
    exact hns2 ⟨hin.1, not_le.mp he⟩
  unfold clip ivLen
  rw [min_eq_left he, max_eq_left hb, max_eq_right (by linarith)]

theorem clip_eq_zero {iv : Iv} {lo hi : ℚ} (hout : ¬(iv.1 < hi ∧ lo < iv.2)) :
    clip iv lo hi = 0 := by
  unfold clip
  rw [max_eq_left]
  rcases not_and_or.mp hout with h | h
  · have h1 : hi ≤ iv.1 := not_lt.mp h
    have h2 : min iv.2 hi ≤ hi := min_le_right _ _
    have h3 : iv.1 ≤ max iv.1 lo := le_max_left _ _
    linarith
  · have h1 : iv.2 ≤ lo := not_lt.mp h
    have h2 : min iv.2 hi ≤ iv.2 := min_le_left _ _
    have h3 : lo ≤ max iv.1 lo := le_max_right _ _
    linarith

theorem deltaSum_treeOverlap {lo hi : ℚ} {l : List Iv} (hlt : lo < hi)
    (h1 : NoStraddle lo l) (h2 : NoStraddle hi l) (hv : ValidIvs l) :
    deltaSum (treeOverlap lo hi l) = clipSum l lo hi := by
  unfold treeOverlap
  rw [if_neg (not_le.mpr hlt)]
  induction l with
  | nil => rfl
  | cons iv tl ih =>
    have h1' : NoStraddle lo tl := fun x hx => h1 x (List.mem_cons_of_mem _ hx)
    have h2' : NoStraddle hi tl := fun x hx => h2 x (List.mem_cons_of_mem _ hx)
    have hv' : ValidIvs tl := fun x hx => hv x (List.mem_cons_of_mem _ hx)
    rw [List.filter_cons, clipSum_cons]
    by_cases hc : iv.1 < hi ∧ lo < iv.2
    · rw [if_pos (by simp [hc.1, hc.2])]
      have : deltaSum (iv :: List.filter
          (fun x => decide (x.1 < hi) && decide (lo < x.2)) tl) =
          ivLen iv + deltaSum (List.filter
          (fun x => decide (x.1 < hi) && decide (lo < x.2)) tl) := by
        simp [deltaSum]
      rw [this, ih h1' h2' hv',
        clip_eq_len (hv iv (List.mem_cons_self _ _))
          (h1 iv (List.mem_cons_self _ _)) (h2 iv (List.mem_cons_self _ _)) hc]
    · rw [if_neg (by simpa using hc), ih h1' h2' hv', clip_eq_zero hc,
        zero_add]

/-! ### Structure of the merged collection -/

theorem mem_insertIv {x y : Iv} {l : List Iv} (h : y ∈ insertIv x l) :
    y = x ∨ y ∈ l := by
  induction l with
  | nil =>
    rcases List.mem_cons.mp h with rfl | h2
    · exact Or.inl rfl
    · cases h2
  | cons z tl ih =>
    unfold insertIv at h
    split_ifs at h with hle
    · rcases List.mem_cons.mp h with rfl | h2
      · exact Or.inl rfl
      · exact Or.inr h2
    · rcases List.mem_cons.mp h with rfl | h2
      · exact Or.inr (List.mem_cons_self _ _)
      · rcases ih h2 with h3 | h3
        · exact Or.inl h3
        · exact Or.inr (List.mem_cons_of_mem _ h3)

theorem mem_sortIvs {y : Iv} {l : List Iv} (h : y ∈ sortIvs l) : y ∈ l := by
  induction l with
  | nil => cases h
  | cons x tl ih =>
    unfold sortIvs at h
    rcases mem_insertIv h with rfl | h2
    · exact List.mem_cons_self _ _
    · exact List.mem_cons_of_mem _ (ih h2)

/-- The invariant of the `merge_overlaps` fold: the accumulator, most
recent interval first, is a reversed disjoint chain of valid intervals. -/
def RevChainOk (acc : List Iv) : Prop :=
  List.Chain' (fun u v => v.2 ≤ u.1) acc ∧ ValidIvs acc

theorem mergeStep_ok {acc : List Iv} {x : Iv} (hx : x.1 < x.2)
    (h : RevChainOk acc) : RevChainOk (mergeStep acc x) := by
  obtain ⟨hchain, hval⟩ := h
  match acc with
  | [] =>
    refine ⟨List.chain'_singleton _, ?_⟩
    intro iv hiv
    rcases List.mem_cons.mp hiv with rfl | h2
    · exact hx
    · cases h2
  | cur :: rest =>
    change RevChainOk
      (if x.1 < cur.2 then (cur.1, max cur.2 x.2) :: rest else x :: cur :: rest)
    split_ifs with hov
    · constructor
      · rw [List.chain'_cons'] at hchain ⊢
        exact ⟨fun y hy => hchain.1 y hy, hchain.2⟩
      · intro iv hiv
        rcases List.mem_cons.mp hiv with rfl | h2
        · have : cur.1 < cur.2 := hval cur (List.mem_cons_self _ _)
          exact lt_of_lt_of_le this (le_max_left _ _)
        · exact hval iv (List.mem_cons_of_mem _ h2)
    · constructor
      · rw [List.chain'_cons]
        exact ⟨not_lt.mp hov, hchain⟩
      · intro iv hiv
        rcases List.mem_cons.mp hiv with rfl | h2
        · exact hx
        · exact hval iv h2

theorem foldl_mergeStep_ok {l acc : List Iv} (hl : ValidIvs l)
    (h : RevChainOk acc) : RevChainOk (l.foldl mergeStep acc) := by
  induction l generalizing acc with
  | nil => exact h
  | cons x tl ih =>
    rw [List.foldl_cons]
    exact ih (fun iv hiv => hl iv (List.mem_cons_of_mem _ hiv))
      (mergeStep_ok (hl x (List.mem_cons_self _ _)) h)

theorem mergeOverlaps_chain {l : List Iv} (hv : ValidIvs l) :
    List.Chain' (fun u v => u.2 ≤ v.1) (mergeOverlaps l) := by
  have hsort : ValidIvs (sortIvs l) := fun iv hiv => hv iv (mem_sortIvs hiv)
  have h := @foldl_mergeStep_ok (sortIvs l) [] hsort
    ⟨List.chain'_nil, by intro iv h; cases h⟩
  unfold mergeOverlaps
  rw [List.chain'_reverse]
  exact h.1

theorem mergeOverlaps_valid {l : List Iv} (hv : ValidIvs l) :
    ValidIvs (mergeOverlaps l) := by
  have hsort : ValidIvs (sortIvs l) := fun iv hiv => hv iv (mem_sortIvs hiv)
  have h := @foldl_mergeStep_ok (sortIvs l) [] hsort
    ⟨List.chain'_nil, by intro iv h; cases h⟩
  intro iv hiv
  exact h.2 iv (List.mem_reverse.mp hiv)

theorem chain_tail_lb {x : Iv} {tl : List Iv}
    (hc : List.Chain' (fun u v => u.2 ≤ v.1) (x :: tl)) (hv : ValidIvs tl) :
    ∀ iv ∈ tl, x.2 ≤ iv.1 := by
  induction tl generalizing x with
  | nil => intro iv h; cases h
  | cons y ys ih =>
    rw [List.chain'_cons] at hc
    intro iv hiv
    rcases List.mem_cons.mp hiv with rfl | h2
    · exact hc.1
    · have hy : y.1 < y.2 := hv y (List.mem_cons_self _ _)
      have := ih hc.2 (fun z hz => hv z (List.mem_cons_of_mem _ hz)) iv h2
      linarith [hc.1]

/-- Disjoint chains of valid intervals cover at most the span itself:
the total clipped length inside `[lo, hi]` is at most `hi - lo`. -/
theorem clipSum_le_span {l : List Iv}
    (hc : List.Chain' (fun u v => u.2 ≤ v.1) l) (hv : ValidIvs l)
    {lo hi : ℚ} (hlh : lo ≤ hi) : clipSum l lo hi ≤ hi - lo := by
  induction l generalizing lo with
  | nil => rw [clipSum_nil]; linarith
  | cons iv tl ih =>
    have hvtl : ValidIvs tl := fun z hz => hv z (List.mem_cons_of_mem _ hz)
    have hlb : ∀ z ∈ tl, iv.2 ≤ z.1 := chain_tail_lb hc hvtl
    have hm : ∀ z ∈ tl, min iv.2 hi ≤ z.1 :=
      fun z hz => le_trans (min_le_left _ _) (hlb z hz)
    rw [clipSum_cons, clipSum_raise tl lo hi (min iv.2 hi) hm]
    have hle : max lo (min iv.2 hi) ≤ hi := max_le hlh (min_le_right _ _)
    have htail := ih hc.tail hvtl hle
    have hclip : clip iv lo hi ≤ max lo (min iv.2 hi) - lo := by
      apply max_le
      · have := le_max_left lo (min iv.2 hi); linarith
      · have h1 : lo ≤ max iv.1 lo := le_max_right _ _
        have h2 : min iv.2 hi ≤ max lo (min iv.2 hi) := le_max_right _ _
        linarith
    linarith

/-! ### The query law: `__call__` computes the clipped measure -/

/-- The central law of `TrimmingTree.__call__`: for a collection of valid
removed intervals, the returned value is the query point shifted by the
total length of the merged removed intervals intersected with the closed
span between the anchor and the point (subtracted when `point >= anchor`,
added otherwise), rounded when `ndigits` is configured. -/
theorem call_eq_clip (t : TrimmingTree) (p : ℚ) (hv : ValidIvs t.tree) :
    t.call p =
      applyRound t.ndigits
        (if t.anchor ≤ p
         then p - clipSum (mergeOverlaps t.tree) (min p t.anchor) (max p t.anchor)
         else p + clipSum (mergeOverlaps t.tree) (min p t.anchor) (max p t.anchor)) := by
  have hvM : ValidIvs (mergeOverlaps t.tree) := mergeOverlaps_valid hv
  unfold TrimmingTree.call
  dsimp only
  by_cases hpa : p = t.anchor
  · rw [hpa, min_self, max_self]
    unfold treeOverlap
    rw [if_pos (le_refl t.anchor), if_pos (le_refl t.anchor),
      clipSum_degenerate _ _ _ (le_refl t.anchor)]
    simp [deltaSum]
  · have hlohi : min p t.anchor < max p t.anchor := min_lt_max.mpr hpa
    have hvs : ValidIvs (sliceTree p (sliceTree t.anchor (mergeOverlaps t.tree))) :=
      validIvs_sliceTree (validIvs_sliceTree hvM)
    have hnsa : NoStraddle t.anchor
        (sliceTree p (sliceTree t.anchor (mergeOverlaps t.tree))) :=
      noStraddle_sliceTree (noStraddle_sliceTree_self _ _)
    have hnsp : NoStraddle p
        (sliceTree p (sliceTree t.anchor (mergeOverlaps t.tree))) :=
      noStraddle_sliceTree_self _ _
    have hnslo : NoStraddle (min p t.anchor)
        (sliceTree p (sliceTree t.anchor (mergeOverlaps t.tree))) := by
      rcases min_choice p t.anchor with h | h <;> rw [h]
      · exact hnsp
      · exact hnsa
    have hnshi : NoStraddle (max p t.anchor)
        (sliceTree p (sliceTree t.anchor (mergeOverlaps t.tree))) := by
      rcases max_choice p t.anchor with h | h <;> rw [h]
      · exact hnsp
      · exact hnsa
    rw [deltaSum_treeOverlap hlohi hnslo hnshi hvs, clipSum_sliceTree,
      clipSum_sliceTree]
    split_ifs with ha
    · ring_nf
    · ring_nf

/-! ### Monotonicity of the rounding step -/

theorem floor_le_rhe (x : ℚ) : ⌊x⌋ ≤ rhe x := by
  unfold rhe
  split_ifs <;> omega

theorem rhe_le_floor_add_one (x : ℚ) : rhe x ≤ ⌊x⌋ + 1 := by
  unfold rhe
  split_ifs <;> omega

theorem rhe_mono {x y : ℚ} (h : x ≤ y) : rhe x ≤ rhe y := by
  have hf : ⌊x⌋ ≤ ⌊y⌋ := Int.floor_le_floor h
  rcases lt_or_eq_of_le hf with hlt | heq
  · calc rhe x ≤ ⌊x⌋ + 1 := rhe_le_floor_add_one x
    _ ≤ ⌊y⌋ := by omega
    _ ≤ rhe y := floor_le_rhe y
  · unfold rhe
    rw [← heq]
    have : x - ⌊x⌋ ≤ y - ⌊x⌋ := by linarith
    split_ifs <;> first | omega | linarith

theorem applyRound_mono (nd : Option ℤ) {x y : ℚ} (h : x ≤ y) :
    applyRound nd x ≤ applyRound nd y := by
  cases nd with
  | none => exact h
  | some n =>
    have hp : (0 : ℚ) < (10 : ℚ) ^ n := zpow_pos (by norm_num) n
    have h2 : ((rhe (x * (10 : ℚ) ^ n) : ℤ) : ℚ) ≤
        ((rhe (y * (10 : ℚ) ^ n) : ℤ) : ℚ) := by
      exact_mod_cast rhe_mono (mul_le_mul_of_nonneg_right h hp.le)
    show ((rhe (x * (10 : ℚ) ^ n) : ℤ) : ℚ) / (10 : ℚ) ^ n ≤
        ((rhe (y * (10 : ℚ) ^ n) : ℤ) : ℚ) / (10 : ℚ) ^ n
    exact (div_le_div_iff_of_pos_right hp).mpr h2

/-- The remapping is monotone in the query point. -/
theorem call_mono (t : TrimmingTree) (hv : ValidIvs t.tree) {p q : ℚ}
    (hpq : p ≤ q) : t.call p ≤ t.call q := by
  rw [call_eq_clip t p hv, call_eq_clip t q hv]
  apply applyRound_mono
  have hchain := mergeOverlaps_chain hv
  have hvM := mergeOverlaps_valid hv
  rcases le_or_lt t.anchor p with hap | hpa
  · have haq : t.anchor ≤ q := le_trans hap hpq
    rw [if_pos hap, if_pos haq, min_eq_right hap, max_eq_left hap,
      min_eq_right haq, max_eq_left haq]
    rw [clipSum_additive (mergeOverlaps t.tree) t.anchor p q hap hpq]
    have := clipSum_le_span hchain hvM hpq
    linarith
  · rw [if_neg (not_le.mpr hpa), min_eq_left hpa.le, max_eq_right hpa.le]
    rcases le_or_lt t.anchor q with haq | hqa
    · rw [if_pos haq, min_eq_right haq, max_eq_left haq]
      have hadd :=
        clipSum_additive (mergeOverlaps t.tree) p t.anchor q hpa.le haq
      have hb := clipSum_le_span hchain hvM (le_trans hpa.le haq)
      linarith
    · rw [if_neg (not_le.mpr hqa), min_eq_left hqa.le, max_eq_right hqa.le]
      have hadd :=
        clipSum_additive (mergeOverlaps t.tree) p q t.anchor hpq hqa.le
      have hb := clipSum_le_span hchain hvM hpq
      linarith

/-- A span lying inside a single merged removed interval is removed in
full: its clipped measure is its whole length. -/
theorem clipSum_hole {l : List Iv} {b e u v : ℚ}
    (hc : List.Chain' (fun x y => x.2 ≤ y.1) l) (hv : ValidIvs l)
    (hmem : (b, e) ∈ l) (h1 : b ≤ u) (h2 : u ≤ v) (h3 : v ≤ e) :
    clipSum l u v = v - u := by
  have hup : clipSum l u v ≤ v - u := clipSum_le_span hc hv h2
  have hclip : clip (b, e) u v = v - u := by
    unfold clip
    rw [min_eq_right h3, max_eq_right h1, max_eq_right (by linarith)]
  have hlow := clip_le_clipSum (b, e) l u v hmem
  rw [hclip] at hlow
  linarith

/-! ### The two tree classes agree operation for operation -/

theorem applyOp_toTrimmer (t : TrimmingTree) (op : TrimOp) :
    (toTrimmer t).applyOp op = (t.applyOp op).map toTrimmer := by
  cases op with
  | interval b e =>
    show (toTrimmer t).addInterval b e = (t.addInterval b e).map toTrimmer
    unfold TrimmerTree.addInterval TrimmingTree.addInterval
    split_ifs <;> rfl
  | segment s d =>
    show (toTrimmer t).addInterval s (s + d) =
      (t.addInterval s (s + d)).map toTrimmer
    unfold TrimmerTree.addInterval TrimmingTree.addInterval
    split_ifs <;> rfl

theorem foldlM_toTrimmer (ops : List TrimOp) (t : TrimmingTree) :
    ops.foldlM TrimmerTree.applyOp (toTrimmer t)
      = (ops.foldlM TrimmingTree.applyOp t).map toTrimmer := by
  induction ops generalizing t with
  | nil => rfl
  | cons op tl ih =>
    rw [List.foldlM_cons, List.foldlM_cons, applyOp_toTrimmer]
    cases t.applyOp op with
    | error err => rfl
    | ok t2 =>
      show tl.foldlM TrimmerTree.applyOp (toTrimmer t2)
        = (tl.foldlM TrimmingTree.applyOp t2).map toTrimmer
      exact ih t2

/-! ## The claims -/

/-- C1: for every anchor, every removed-interval collection reachable
through the insertion API (all stored intervals valid), and every query
point `p`, `TrimmingTree.__call__` returns `p - delta` when `p ≥ anchor`
and `p + delta` when `p < anchor`, where `delta` is the total length of
the merged removed intervals intersected with the closed span
`[min(anchor,p), max(anchor,p)]` (a straddling interval contributes only
its portion inside the span); when `ndigits` is configured the result is
rounded to that many decimal digits, otherwise it is returned unrounded. -/
theorem trimming_call_delta_formula (t : TrimmingTree) (p : ℚ)
    (hv : ValidIvs t.tree) :
    t.call p =
      applyRound t.ndigits
        (if t.anchor ≤ p
         then p - clipSum (mergeOverlaps t.tree) (min p t.anchor) (max p t.anchor)
         else p + clipSum (mergeOverlaps t.tree) (min p t.anchor) (max p t.anchor)) :=
  call_eq_clip t p hv

/-- Witness for C1: anchor 0, removed interval `[10,15)`, query 20. -/
theorem trimming_call_delta_formula_witness :
    ValidIvs [((10 : ℚ), (15 : ℚ))] ∧
    (⟨0, none, [(10, 15)], false⟩ : TrimmingTree).call 20 =
      applyRound none
        (if (0 : ℚ) ≤ 20
         then 20 - clipSum (mergeOverlaps [(10, 15)]) (min 20 0) (max 20 0)
         else 20 + clipSum (mergeOverlaps [(10, 15)]) (min 20 0) (max 20 0)) :=
  ⟨by decide, trimming_call_delta_formula ⟨0, none, [(10, 15)], false⟩ 20 (by decide)⟩

/-- C2: the point remapping is monotone: for every anchor, every valid
removed-interval collection, and every `p₁ < p₂`,
`remap(p₁) ≤ remap(p₂)`, whether the points share a side of the anchor or
straddle it, and under any configured rounding. -/
theorem trimming_call_monotone (t : TrimmingTree) (p₁ p₂ : ℚ)
    (hv : ValidIvs t.tree) (h : p₁ < p₂) : t.call p₁ ≤ t.call p₂ :=
  call_mono t hv h.le

/-- Witness for C2: anchor 0, removed `[10,15)`, points 5 < 20. -/
theorem trimming_call_monotone_witness :
    ValidIvs [((10 : ℚ), (15 : ℚ))] ∧ (5 : ℚ) < 20 ∧
    (⟨0, none, [(10, 15)], false⟩ : TrimmingTree).call 5 ≤
      (⟨0, none, [(10, 15)], false⟩ : TrimmingTree).call 20 :=
  ⟨by decide, by decide,
    trimming_call_monotone ⟨0, none, [(10, 15)], false⟩ 5 20 (by decide) (by decide)⟩

/-- C3 as stated is false: `merge_overlaps()` (default `strict=True`) does
not fold the merely-touching intervals `[10,15)` and `[15,20)` into
`[10,20)`; they survive merging as two separate intervals. -/
theorem merge_touching_not_folded :
    mergeOverlaps [((10 : ℚ), 15), (15, 20)] ≠ [(10, 20)] := by decide

/-- C3 (amended): merging keeps merely-touching intervals separate: every
pair with `a.end == b.begin` (both valid) survives `merge_overlaps`
unchanged; in particular `{[10,15), [15,20)}` stays two intervals.  The
query behaviour is nevertheless as the spec's scenario expects: with
anchor 0, `remap(25) == 15`, the touching pieces contributing additively. -/
theorem merge_touching_stays_separate (x y : Iv) (h1 : x.1 < x.2)
    (h2 : x.2 = y.1) (h3 : y.1 < y.2) :
    mergeOverlaps [x, y] = [x, y] ∧
    (⟨0, none, [(10, 15), (15, 20)], false⟩ : TrimmingTree).call 25 = 15 := by
  constructor
  · have hxy : ivLeB x y = true := by
      unfold ivLeB
      have hlt : x.1 < y.1 := h2 ▸ h1
      simp [hlt]
    have hnot : ¬(y.1 < x.2) := by
      rw [h2]
      exact lt_irrefl _
    show ((sortIvs [x, y]).foldl mergeStep []).reverse = [x, y]
    have hs : sortIvs [x, y] = [x, y] := by
      show insertIv x [y] = [x, y]
      unfold insertIv
      rw [if_pos hxy]
    rw [hs]
    show (mergeStep [x] y).reverse = [x, y]
    change (if y.1 < x.2 then (x.1, max x.2 y.2) :: ([] : List Iv)
      else y :: x :: []).reverse = [x, y]
    rw [if_neg hnot]
    rfl
  · with_unfolding_all decide

/-- Witness for C3 (amended) at `x = (10,15)`, `y = (15,20)`. -/
theorem merge_touching_stays_separate_witness :
    (10 : ℚ) < 15 ∧ (15 : ℚ) = 15 ∧ (15 : ℚ) < 20 ∧
    (mergeOverlaps [((10 : ℚ), 15), (15, 20)] = [(10, 15), (15, 20)] ∧
      (⟨0, none, [(10, 15), (15, 20)], false⟩ : TrimmingTree).call 25 = 15) :=
  ⟨by decide, rfl, by decide,
    merge_touching_stays_separate (10, 15) (15, 20) (by decide) rfl (by decide)⟩

/-- C4 as stated is false: inserting the zero-length interval `[3,3)` does
not succeed; `IntervalTree.addi` raises `ValueError` on null intervals,
through both `add_interval(3, 3)` and `add_segment(3, 0)`. -/
theorem add_zero_length_raises :
    (TrimmingTree.make 0 none).addInterval 3 3 = .error .valueError ∧
    (TrimmingTree.make 0 none).addSegment 3 0 = .error .valueError :=
  ⟨rfl, by with_unfolding_all rfl⟩

/-- C4 (amended): zero-length intervals are rejected at insertion time:
for every state and every `x`, `add_interval(x, x)` and
`add_segment(x, 0)` raise `ValueError` (the library's null-interval
check), so a zero-length interval never enters the collection; and indeed
a degenerate interval would contribute zero to every clipped delta sum. -/
theorem add_zero_length_rejected (t : TrimmingTree) (x : ℚ) :
    t.addInterval x x = .error .valueError ∧
    t.addSegment x 0 = .error .valueError ∧
    ∀ lo hi : ℚ, clip (x, x) lo hi = 0 := by
  refine ⟨?_, ?_, ?_⟩
  · unfold TrimmingTree.addInterval
    rw [if_pos (le_refl x)]
  · unfold TrimmingTree.addSegment TrimmingTree.addInterval
    rw [if_pos (le_of_eq (add_zero x))]
  · intro lo hi
    unfold clip
    rw [max_eq_left]
    have h1 : min x hi ≤ x := min_le_left _ _
    have h2 : x ≤ max x lo := le_max_left _ _
    linarith

/-- C5 as stated is false: with anchor `1/3`, `ndigits = 2` and an empty
removed set, remapping the anchor returns `round(1/3, 2) = 33/100 ≠ 1/3`. -/
theorem anchor_not_fixed_when_rounded :
    (⟨1 / 3, some 2, [], false⟩ : TrimmingTree).call (1 / 3) ≠ 1 / 3 := by
  with_unfolding_all decide

/-- C5 (amended): remapping the anchor returns the anchor with the
configured rounding applied: `remap(a) = round(a, ndigits)` for every
anchor and removed-interval set, hence `remap(a) = a` exactly when no
rounding is configured (or the anchor is representable at that
precision). -/
theorem trimming_anchor_identity (t : TrimmingTree) :
    t.call t.anchor = applyRound t.ndigits t.anchor ∧
    (t.ndigits = none → t.call t.anchor = t.anchor) := by
  have hmain : t.call t.anchor = applyRound t.ndigits t.anchor := by
    unfold TrimmingTree.call
    dsimp only
    rw [min_self, max_self]
    unfold treeOverlap
    rw [if_pos (le_refl t.anchor), if_pos (le_refl t.anchor)]
    simp [deltaSum]
  exact ⟨hmain, fun hnd => by rw [hmain, hnd]; rfl⟩

/-- Witness for C5 (amended): anchor 5, no rounding, removed `[1,2)`. -/
theorem trimming_anchor_identity_witness :
    (⟨5, none, [(1, 2)], false⟩ : TrimmingTree).call 5 = 5 :=
  (trimming_anchor_identity ⟨5, none, [(1, 2)], false⟩).2 rfl

/-- C6: the Defragmentation transform built from kept segments
`[(0,10), (20,10)]` stores exactly those canonical segments; its trimmer
holds exactly the complement of the kept regions — the gap `[10,20)` plus
the unbounded tails `(-inf,0)` and `(30,+inf)` — anchored at 0 with no
rounding; and through `reverse_timestamps`, `remap_point(25) == 15` and
`remap_segment(20,10) == (10,10)`. -/
theorem defrag_complement_example :
    Defragmentation.make [(0, 10), (20, 10)] = .ok ⟨[(0, 10), (20, 10)]⟩ ∧
    (Defragmentation.mk [(0, 10), (20, 10)]).trimmer =
      .ok ⟨XQ.fin 0, none,
        [(XQ.ninf, XQ.fin 0), (XQ.fin 10, XQ.fin 20), (XQ.fin 30, XQ.pinf)],
        false⟩ ∧
    (Defragmentation.mk [(0, 10), (20, 10)]).reverseTimestamps 25 none =
      .ok (XQ.fin 15, none) ∧
    (Defragmentation.mk [(0, 10), (20, 10)]).reverseTimestamps 20 (some 10) =
      .ok (XQ.fin 10, some (XQ.fin 10)) := by
  refine ⟨?_, ?_, ?_, ?_⟩ <;> with_unfolding_all rfl

/-- C7: inserting an invalid range fails immediately at insertion time,
in both tree classes: for every `begin > end`, `add_interval` raises
`ValueError`, and for every negative `duration`, `add_segment` raises
`ValueError`; no new tree state is produced, so nothing is deferred to a
later query. -/
theorem add_invalid_range_raises (t : TrimmingTree) (u : TrimmerTree)
    (b e s d : ℚ) (hbe : e < b) (hd : d < 0) :
    t.addInterval b e = .error .valueError ∧
    t.addSegment s d = .error .valueError ∧
    u.addInterval b e = .error .valueError ∧
    u.addSegment s d = .error .valueError := by
  refine ⟨?_, ?_, ?_, ?_⟩
  · unfold TrimmingTree.addInterval
    rw [if_pos hbe.le]
  · unfold TrimmingTree.addSegment TrimmingTree.addInterval
    rw [if_pos (by linarith)]
  · unfold TrimmerTree.addInterval
    rw [if_pos hbe.le]
  · unfold TrimmerTree.addSegment TrimmerTree.addInterval
    rw [if_pos (by linarith)]

/-- Witness for C7: `begin = 5 > 3 = end`, `duration = -1 < 0`. -/
theorem add_invalid_range_raises_witness :
    (3 : ℚ) < 5 ∧ (-1 : ℚ) < 0 ∧
    ((TrimmingTree.make 0 none).addInterval 5 3 = .error .valueError ∧
      (TrimmingTree.make 0 none).addSegment 0 (-1) = .error .valueError ∧
      (TrimmerTree.make 0 none).addInterval 5 3 = .error .valueError ∧
      (TrimmerTree.make 0 none).addSegment 0 (-1) = .error .valueError) :=
  ⟨by decide, by decide,
    add_invalid_range_raises (TrimmingTree.make 0 none) (TrimmerTree.make 0 none)
      5 3 0 (-1) (by decide) (by decide)⟩

/-- C8: for every samples array and sampling rate, the sample-level edit
`Defragmentation.__call__` raises the distinct `NotImplementedError` and
never returns any data, in particular never the unmodified input. -/
theorem defrag_call_raises (d : Defragmentation) (samples : List ℚ) (sr : ℕ) :
    d.callSamples samples sr = .error .notImplementedError ∧
    ∀ out : List ℚ, d.callSamples samples sr ≠ .ok out :=
  ⟨rfl, fun _ h => Except.noConfusion h⟩

/-- C9: `TrimmingTree` and `TrimmerTree` are extensionally equivalent: for
every anchor, `ndigits`, sequence of `add_segment` / `add_interval` calls
(including any raised error) and every point, interval and segment query,
the two classes produce identical results. -/
theorem trimming_trimmer_equivalent (a : ℚ) (nd : Option ℤ)
    (ops : List TrimOp) (p s e d : ℚ) :
    (buildTrimming a nd ops).map
        (fun t => (t.call p, t.interval s e, t.segment s d))
      = (buildTrimmer a nd ops).map
        (fun t => (t.call p, t.interval s e, t.segment s d)) := by
  unfold buildTrimming buildTrimmer
  have hmk : TrimmerTree.make a nd = toTrimmer (TrimmingTree.make a nd) := rfl
  rw [hmk, foldlM_toTrimmer]
  cases ops.foldlM TrimmingTree.applyOp (TrimmingTree.make a nd) <;> rfl

/-- C10: every point inside a removed hole collapses to the image of the
hole's edge nearer the anchor: for every merged removed interval `[b, e)`
with `anchor ≤ b`, every `p` with `b ≤ p ≤ e` satisfies
`remap(p) = remap(b)`; symmetrically, for a hole with `e ≤ anchor`,
`remap(p) = remap(e)`. -/
theorem hole_collapse (t : TrimmingTree) (b e p : ℚ) (hv : ValidIvs t.tree)
    (hmem : (b, e) ∈ mergeOverlaps t.tree) :
    (t.anchor ≤ b → b ≤ p → p ≤ e → t.call p = t.call b) ∧
    (e ≤ t.anchor → b ≤ p → p ≤ e → t.call p = t.call e) := by
  have hchain := mergeOverlaps_chain hv
  have hvM := mergeOverlaps_valid hv
  constructor
  · intro ha hbp hpe
    have hap : t.anchor ≤ p := le_trans ha hbp
    rw [call_eq_clip t p hv, call_eq_clip t b hv, if_pos hap, if_pos ha,
      min_eq_right hap, max_eq_left hap, min_eq_right ha, max_eq_left ha]
    have hadd :=
      clipSum_additive (mergeOverlaps t.tree) t.anchor b p ha hbp
    have hfull := clipSum_hole hchain hvM hmem (le_refl b) hbp hpe
    congr 1
    linarith
  · intro hea hbp hpe
    rcases eq_or_lt_of_le hpe with heq | hpe'
    · rw [heq]
    · have hpa : p < t.anchor := lt_of_lt_of_le hpe' hea
      rw [call_eq_clip t p hv, call_eq_clip t e hv,
        if_neg (not_le.mpr hpa), min_eq_left hpa.le, max_eq_right hpa.le]
      have hadd :=
        clipSum_additive (mergeOverlaps t.tree) p e t.anchor hpe'.le hea
      have hfull := clipSum_hole hchain hvM hmem hbp hpe'.le (le_refl e)
      rcases eq_or_lt_of_le hea with heqa | hea'
      · rw [← heqa, if_pos (le_refl e), min_self, max_self,
          clipSum_degenerate _ _ _ (le_refl e)]
        rw [← heqa] at hadd
        have hzero := clipSum_degenerate (mergeOverlaps t.tree) e e (le_refl e)
        congr 1
        linarith
      · rw [if_neg (not_le.mpr hea'), min_eq_left hea'.le,
          max_eq_right hea'.le]
        congr 1
        linarith

/-- Witness for C10: anchor 0, merged hole `[10,15)`, interior point 12. -/
theorem hole_collapse_witness :
    ValidIvs [((10 : ℚ), (15 : ℚ))] ∧
    ((10 : ℚ), (15 : ℚ)) ∈ mergeOverlaps [((10 : ℚ), (15 : ℚ))] ∧
    (⟨0, none, [(10, 15)], false⟩ : TrimmingTree).call 12 =
      (⟨0, none, [(10, 15)], false⟩ : TrimmingTree).call 10 :=
  ⟨by decide, by decide,
    (hole_collapse ⟨0, none, [(10, 15)], false⟩ 10 15 12 (by decide)
        (by decide)).1 (by decide) (by decide) (by decide)⟩

end Lhotse
